import Mathlib

/-!
Verification development for the sfmanager dual-pane file manager
(src/panel.rs, src/app.rs, src/popup.rs).

Paths are modelled as lists of components (`PathBuf` with its components);
the empty list plays the role of `PathBuf::new()` (the empty path `""`) when
it denotes a value returned by `Panel::get_cur_obj`, and of the filesystem
root when it denotes a panel's current directory.  The filesystem is a rose
tree of directories and files; fallible `std::fs` primitives are
parameterised by an oracle injecting the I/O errors the real system may
produce.
-/

/-- Path components, as in `PathBuf` (absolute paths, root = `[]`). -/
abbrev FPath := List String

/-- Byte-order comparison of two characters, as Rust compares the bytes of
an `OsStr` (UTF-8 byte order coincides with code-point order). -/
def chCmp (a b : Char) : Ordering :=
  if a.toNat < b.toNat then .lt
  else if b.toNat < a.toNat then .gt
  else .eq

/-- Lexicographic comparison of character lists, the order `str::cmp` uses. -/
def strCmpL : List Char → List Char → Ordering
  | [], [] => .eq
  | [], _ :: _ => .lt
  | _ :: _, [] => .gt
  | a :: as, b :: bs =>
    match chCmp a b with
    | .eq => strCmpL as bs
    | o => o

/-- Comparison of two path components (`OsString` comparison in Rust). -/
def strCmp (a b : String) : Ordering :=
  strCmpL a.toList b.toList

/-- Comparison of two paths, component-wise, as `PathBuf::cmp`. -/
def pathCmp : FPath → FPath → Ordering
  | [], [] => .eq
  | [], _ :: _ => .lt
  | _ :: _, [] => .gt
  | a :: as, b :: bs =>
    match strCmp a b with
    | .eq => pathCmp as bs
    | o => o

/-- One filesystem object: a regular file with (abstract) byte content, or a
directory with named children. -/
inductive FsNode where
  | file (data : Nat)
  | dir (children : List (String × FsNode))
deriving Repr

/-- First child of a directory-children list with the given name
(directory entries of a real filesystem have unique names). -/
def childFind : List (String × FsNode) → String → Option FsNode
  | [], _ => none
  | (m, c) :: cs, n => if m = n then some c else childFind cs n

/-- Replace the first child with the given name. -/
def childReplace : List (String × FsNode) → String → FsNode → List (String × FsNode)
  | [], _, _ => []
  | (m, c) :: cs, n, v => if m = n then (n, v) :: cs else (m, c) :: childReplace cs n v

/-- Delete every child with the given name. -/
def childErase (cs : List (String × FsNode)) (n : String) : List (String × FsNode) :=
  cs.filter (fun e => !(e.1 == n))

/-- Resolve a path to the node it denotes, `none` when no such object exists. -/
def fsLookup : FsNode → FPath → Option FsNode
  | t, [] => some t
  | .file _, _ :: _ => none
  | .dir cs, n :: rest =>
    match childFind cs n with
    | some c => fsLookup c rest
    | none => none

/-- Point update at a path: apply `f` to the object found there (or to
`none` when absent); `f` returning `none` deletes the object.  Paths whose
parent chain does not resolve are left unchanged (the corresponding
`std::fs` call would fail). -/
def fsModify : FsNode → FPath → (Option FsNode → Option FsNode) → FsNode
  | t, [], _ => t
  | .file d, _ :: _, _ => .file d
  | .dir cs, [n], f =>
    match childFind cs n with
    | some c =>
      match f (some c) with
      | some v => .dir (childReplace cs n v)
      | none => .dir (childErase cs n)
    | none =>
      match f none with
      | some v => .dir (cs ++ [(n, v)])
      | none => .dir cs
  | .dir cs, n :: m :: rest, f =>
    match childFind cs n with
    | some c => .dir (childReplace cs n (fsModify c (m :: rest) f))
    | none => .dir cs

/-- Effect of a successful `fs::copy` on the destination: (over)write the
file at `p`. -/
def writeFile (t : FsNode) (p : FPath) (d : Nat) : FsNode :=
  fsModify t p (fun _ => some (.file d))

/-- Effect of a successful `fs::remove_file` / `fs::remove_dir_all`:
delete the object (and, for a directory, its whole subtree) at `p`. -/
def removePath (t : FsNode) (p : FPath) : FsNode :=
  fsModify t p (fun _ => none)

/-- Effect of a successful `fs::create_dir_all`: create the directory at
`p` together with all missing ancestors; existing objects are kept. -/
def mkdirAll : FsNode → FPath → FsNode
  | t, [] => t
  | .file d, _ :: _ => .file d
  | .dir cs, n :: rest =>
    match childFind cs n with
    | some c => .dir (childReplace cs n (mkdirAll c rest))
    | none => .dir (cs ++ [(n, mkdirAll (.dir []) rest)])

/-- `Path::is_dir()`.  The empty path (`PathBuf::new()`, produced by
`Panel::get_cur_obj` when nothing is selected) never stats successfully, so
it is a directory for no filesystem; a non-empty path is a directory when it
resolves to one. -/
def isDirB (fs : FsNode) (p : FPath) : Bool :=
  match p with
  | [] => false
  | _ :: _ =>
    match fsLookup fs p with
    | some (.dir _) => true
    | _ => false

/-- The raw `fs::read_dir` listing used by `Panel::gen_items`: the full path
of every immediate child, in the (arbitrary) order the directory stores
them; a read failure (or a non-directory path) yields the empty listing, as
the `Err(_) => return Vec::new()` arm does. -/
def readDirRaw (fs : FsNode) (p : FPath) : List FPath :=
  match fsLookup fs p with
  | some (.dir cs) => cs.map (fun c => p ++ [c.1])
  | _ => []

/-- The comparator passed to `sort_by` in `Panel::gen_items`:
directories first, then `PathBuf::cmp`. -/
def entryCmp (d : FPath → Bool) (x y : FPath) : Ordering :=
  if d x && d y then pathCmp x y
  else if d y then .gt
  else if d x then .lt
  else pathCmp x y

/-- `Vec::sort_by` with the comparator above.  `sort_by` is a sort with
respect to the comparator; because `entryCmp` is total, transitive and
antisymmetric (it returns `.eq` only on identical paths), the sorted
permutation of any input is unique, so the structurally recursive insertion
sort used here computes exactly what `sort_by` computes. -/
def sortEntries (d : FPath → Bool) (raw : List FPath) : List FPath :=
  List.insertionSort (fun x y => entryCmp d x y ≠ .gt) raw

/-- Per-pane navigation state, `struct Panel` of panel.rs: `state`
(the `ListState` reduced to its selected index), `path`,
`selection_history` (a `Vec` pushed/popped at the end), `items`. -/
structure Panel where
  selected : Option Nat
  path : FPath
  selection_history : List Nat
  items : List FPath
deriving Repr, DecidableEq

/-- `Panel::gen_items`: list the directory and sort with the
directories-first comparator. -/
def Panel.gen_items (fs : FsNode) (path : FPath) : List FPath :=
  sortEntries (isDirB fs) (readDirRaw fs path)

/-- `Panel::new`. -/
def Panel.new (fs : FsNode) (path : FPath) : Panel :=
  let items := Panel.gen_items fs path
  { selected := if items.length < 1 then none else some 0
    path := path
    selection_history := []
    items := items }

/-- `Panel::get_cur_obj`: the selected entry's path, or `PathBuf::new()`
(here `[]`) when nothing is selected.  (`self.items[x]` is in bounds under
the selection invariant; `getD` is that indexing.) -/
def Panel.get_cur_obj (P : Panel) : FPath :=
  match P.selected with
  | none => []
  | some x => P.items.getD x []

/-- `Panel::get_path`. -/
def Panel.get_path (P : Panel) : FPath := P.path

/-- `Panel::update_items`: re-list the current directory; the selection is
not touched. -/
def Panel.update_items (fs : FsNode) (P : Panel) : Panel :=
  { P with items := Panel.gen_items fs P.path }

/-- `Panel::begin`. -/
def Panel.begin (P : Panel) : Panel :=
  if P.items.length < 1 then { P with selected := none }
  else { P with selected := some 0 }

/-- `Panel::end`. -/
def Panel.endSel (P : Panel) : Panel :=
  if P.items.length < 1 then { P with selected := none }
  else { P with selected := some (P.items.length - 1) }

/-- `Panel::next`.  (For `items.len() = 0` the Rust `len() - 1` underflows
and panics in a debug build; with a selection present that state violates
the selection invariant and is excluded by the theorems below.  Natural
subtraction makes the model total there.) -/
def Panel.next (P : Panel) : Panel :=
  { P with selected :=
      match P.selected with
      | some i => if i ≥ P.items.length - 1 then some i else some (i + 1)
      | none => none }

/-- `Panel::previous`. -/
def Panel.previous (P : Panel) : Panel :=
  { P with selected :=
      match P.selected with
      | some i => if i = 0 then some i else some (i - 1)
      | none => none }

/-- `Panel::open_dir`: no-op without a selection or on a non-directory
entry; otherwise push the directory name onto the path, re-list, push the
old index onto `selection_history` and reset the selection with `begin`.
(`file_name().unwrap()` cannot see `None` here: the entry passed `is_dir`,
so its path is non-empty.) -/
def Panel.open_dir (fs : FsNode) (P : Panel) : Panel :=
  match P.selected with
  | none => P
  | some sel =>
    let it := P.items.getD sel []
    if isDirB fs it then
      match it.getLast? with
      | some n =>
        let path' := P.path ++ [n]
        let items' := Panel.gen_items fs path'
        { selected := if items'.length < 1 then none else some 0
          path := path'
          selection_history := P.selection_history ++ [sel]
          items := items' }
      | none => P
    else P

/-- `Panel::leave_dir`: `path.pop()` fails at the root (no-op); otherwise
re-list the parent and restore the popped selection, or `begin` when the
history is empty. -/
def Panel.leave_dir (fs : FsNode) (P : Panel) : Panel :=
  if P.path.isEmpty then P
  else
    let path' := P.path.dropLast
    let items' := Panel.gen_items fs path'
    match P.selection_history.getLast? with
    | some x =>
      { selected := some x
        path := path'
        selection_history := P.selection_history.dropLast
        items := items' }
    | none =>
      { selected := if items'.length < 1 then none else some 0
        path := path'
        selection_history := P.selection_history.dropLast
        items := items' }

/-- `str::contains` on lists of characters: does `needle` occur as a
contiguous substring of `hay`? -/
def listContainsSub : List Char → List Char → Bool
  | [], needle => needle.isEmpty
  | c :: t, needle => List.isPrefixOf needle (c :: t) || listContainsSub t needle

/-- `str::contains`. -/
def strContains (hay needle : String) : Bool :=
  listContainsSub hay.toList needle.toList

/-- `file_name().unwrap().to_str().unwrap()` of a listing entry: its final
component (listing entries always have one). -/
def fileNameStr (p : FPath) : String :=
  (p.getLast?).getD ""

/-- The enumerated scan of `Panel::jump_to_first_matching`. -/
def jumpAux (q : String) : List FPath → Nat → Option Nat
  | [], _ => none
  | e :: rest, i =>
    if strContains (fileNameStr e) q then some i else jumpAux q rest (i + 1)

/-- `Panel::jump_to_first_matching`: select the first entry whose file name
contains the search string; no match leaves the state unchanged. -/
def Panel.jump_to_first_matching (q : String) (P : Panel) : Panel :=
  match jumpAux q P.items 0 with
  | some i => { P with selected := some i }
  | none => P

/-- The selection invariant of §3 of the spec: no selection iff the listing
is empty, otherwise the selected index is in bounds. -/
def selOk (P : Panel) : Bool :=
  match P.selected with
  | none => P.items.isEmpty
  | some i => decide (i < P.items.length)

/-- Validity of the (reversed) `selection_history` stack: each entry,
innermost first, is an in-bounds index of the listing of the corresponding
ancestor directory. -/
def histOkR (fs : FsNode) : FPath → List Nat → Bool
  | _, [] => true
  | p, i :: rest =>
    !p.isEmpty && decide (i < (Panel.gen_items fs p.dropLast).length)
      && histOkR fs p.dropLast rest

/-- Full panel invariant relative to a filesystem: the cached listing is
the current listing of `path`, the selection invariant holds, and the
history stack is valid. -/
def panelInv (fs : FsNode) (P : Panel) : Bool :=
  (P.items == Panel.gen_items fs P.path) && selOk P
    && histOkR fs P.path P.selection_history.reverse

/-- `enum ActivePanel` of app.rs. -/
inductive ActivePanel where
  | left
  | right
deriving DecidableEq, Repr

/-- `struct Popup` of popup.rs, reduced to its data (`style` is
display-only). -/
structure Popup where
  title : String
  text : String
deriving DecidableEq, Repr

/-- `struct App` of app.rs. -/
structure App where
  cur_panel : ActivePanel
  left_panel : Panel
  right_panel : Panel
  search_str : String
  popup : Option Popup
deriving DecidableEq, Repr

/-- `App::get_cur_panel`. -/
def App.get_cur_panel (a : App) : Panel :=
  match a.cur_panel with
  | .left => a.left_panel
  | .right => a.right_panel

/-- Writing back through the `&mut Panel` returned by `get_cur_panel`. -/
def App.with_cur_panel (a : App) (P : Panel) : App :=
  match a.cur_panel with
  | .left => { a with left_panel := P }
  | .right => { a with right_panel := P }

/-- Outcomes the oracle may inject for each fallible `std::fs` primitive the
executor uses; `none` means the call succeeds. -/
structure Oracle where
  create_dir_err : FPath → Option String
  read_dir_err : FPath → Option String
  copy_file_err : FPath → FPath → Option String
  remove_dir_err : FPath → Option String
  remove_file_err : FPath → Option String

/-- The oracle that injects no failures. -/
def Oracle.ok : Oracle :=
  { create_dir_err := fun _ => none
    read_dir_err := fun _ => none
    copy_file_err := fun _ _ => none
    remove_dir_err := fun _ => none
    remove_file_err := fun _ => none }

/-- `fs::copy` for a single file: may fail by oracle, fails when the source
is not an existing regular file, otherwise writes the destination. -/
def copyFilePrim (o : Oracle) (fs : FsNode) (src dst : FPath) : FsNode × Option String :=
  match o.copy_file_err src dst with
  | some e => (fs, some e)
  | none =>
    match fsLookup fs src with
    | some (.file d) => (writeFile fs dst d, none)
    | _ => (fs, some "No such file or directory (os error 2)")

/-- `fs::remove_file`: may fail by oracle, fails when the path is not an
existing regular file, otherwise deletes it. -/
def removeFilePrim (o : Oracle) (fs : FsNode) (p : FPath) : FsNode × Option String :=
  match o.remove_file_err p with
  | some e => (fs, some e)
  | none =>
    match fsLookup fs p with
    | some (.file _) => (removePath fs p, none)
    | _ => (fs, some "No such file or directory (os error 2)")

/-- The children of a directory as stored. -/
def childrenOf (fs : FsNode) (p : FPath) : List (String × FsNode) :=
  match fsLookup fs p with
  | some (.dir cs) => cs
  | _ => []

mutual

/-- `copy_recursively(source, destination)` of app.rs, called on a source
directory whose children (as read by `fs::read_dir(source)`) are `cs`:
`fs::create_dir_all(destination)?`, then every child in order — files by
`fs::copy`, directories recursively — stopping at the first error, which is
returned while the writes already performed are kept.  The children are the
subtree read at call time; this coincides with the live reads of the Rust
loop whenever the destination does not overlap the source (the theorems
below assume that disjointness). -/
def copyRec (o : Oracle) (src dst : FPath) (cs : List (String × FsNode))
    (fs : FsNode) : FsNode × Option String :=
  match o.create_dir_err dst with
  | some e => (fs, some e)
  | none =>
    let fs1 := mkdirAll fs dst
    match o.read_dir_err src with
    | some e => (fs1, some e)
    | none => copyRecList o src dst cs fs1
termination_by (sizeOf cs, 1)
decreasing_by
  simp_wf
  exact Prod.Lex.right _ (by omega)

/-- The `for entry in fs::read_dir(source)?` loop body of
`copy_recursively`. -/
def copyRecList (o : Oracle) (src dst : FPath) :
    List (String × FsNode) → FsNode → FsNode × Option String
  | [], fs => (fs, none)
  | (n, .file d) :: rest, fs =>
    match o.copy_file_err (src ++ [n]) (dst ++ [n]) with
    | some e => (fs, some e)
    | none => copyRecList o src dst rest (writeFile fs (dst ++ [n]) d)
  | (n, .dir ccs) :: rest, fs =>
    match copyRec o (src ++ [n]) (dst ++ [n]) ccs fs with
    | (fs1, some e) => (fs1, some e)
    | (fs1, none) => copyRecList o src dst rest fs1
termination_by l fs => (sizeOf l, 0)
decreasing_by
  all_goals simp_wf
  all_goals first
    | exact Prod.Lex.right _ (by omega)
    | apply Prod.Lex.left
  all_goals omega

end

/-- `Display` of a path in the error messages (`format!("{}", path.display())`).
Only its shape matters to the theorems; components joined by `/`. -/
def dispPath (p : FPath) : String :=
  String.intercalate "/" p

/-- The error string `App::copy` builds on a failed copy. -/
def copyErrMsg (src dst : FPath) (e : String) : String :=
  "Failed to copy " ++ dispPath src ++ " to " ++ dispPath dst ++ " [Error: " ++ e ++ "]"

/-- The error string `App::move_objects` builds on a failed source delete. -/
def deleteErrMsg (p : FPath) (e : String) : String :=
  "Failed to delete " ++ dispPath p ++ " [Error: " ++ e ++ "]"

/-- The error string `App::delete_objects` builds for a directory. -/
def removeRecErrMsg (p : FPath) (e : String) : String :=
  "Failed to remove " ++ dispPath p ++ " recursively [Error: " ++ e ++ "]"

/-- The error string `App::delete_objects` builds for a file. -/
def removeErrMsg (p : FPath) (e : String) : String :=
  "Failed to remove " ++ dispPath p ++ " [Error: " ++ e ++ "]"

/-- The `src_path` of `App::copy` / `App::move_objects`: the active
panel's selected object. -/
def App.src_obj (a : App) : FPath :=
  a.get_cur_panel.get_cur_obj

/-- The destination root of `App::copy`: the other panel's directory. -/
def App.dest_root (a : App) : FPath :=
  match a.cur_panel with
  | .left => a.right_panel.get_path
  | .right => a.left_panel.get_path

/-- The full destination of `App::copy`:
`dest_path.push(src_path.file_name().unwrap())`.  (Meaningful only when the
source is non-empty; `getD` supplies a dummy for the case in which the Rust
code panics.) -/
def App.dest_obj (a : App) : FPath :=
  a.dest_root ++ [(a.src_obj.getLast?).getD ""]

/-- `App::copy`: resolve the source (the active panel's selected object)
and the destination (the other panel's directory plus the source's file
name), then copy recursively (directory) or byte-copy (file).  The result
is `none` when the function panics — `src_path.file_name().unwrap()` with
no selection — and otherwise carries the filesystem after the attempt plus
the formatted error, if any. -/
def App.copy (o : Oracle) (fs : FsNode) (a : App) : Option (FsNode × Option String) :=
  match (App.src_obj a).getLast? with
  | none => none
  | some _ =>
    if isDirB fs (App.src_obj a) then
      match copyRec o (App.src_obj a) (App.dest_obj a) (childrenOf fs (App.src_obj a)) fs with
      | (fs1, some e) => some (fs1, some (copyErrMsg (App.src_obj a) (App.dest_obj a) e))
      | (fs1, none) => some (fs1, none)
    else
      match copyFilePrim o fs (App.src_obj a) (App.dest_obj a) with
      | (fs1, some e) => some (fs1, some (copyErrMsg (App.src_obj a) (App.dest_obj a) e))
      | (fs1, none) => some (fs1, none)

/-- `App::refresh`: re-list both panels. -/
def App.refresh (fs : FsNode) (a : App) : App :=
  { a with
    left_panel := a.left_panel.update_items fs
    right_panel := a.right_panel.update_items fs }

/-- `App::copy_objects`: run `copy`; on error open the popup and return
without refreshing; on success refresh both panels.  `none` propagates the
panic of `copy`. -/
def App.copy_objects (o : Oracle) (fs : FsNode) (a : App) : Option (App × FsNode) :=
  match a.copy o fs with
  | none => none
  | some (fs1, some e) =>
    some ({ a with popup := some { title := "Error", text := e } }, fs1)
  | some (fs1, none) => some (App.refresh fs1 a, fs1)

/-- `App::move_objects`: run `copy`; on error open the popup and stop (the
source is not deleted); on success delete the source
(`fs::remove_dir_all` for a directory, `fs::remove_file` otherwise) and
refresh, surfacing a delete failure in the popup. -/
def App.move_objects (o : Oracle) (fs : FsNode) (a : App) : Option (App × FsNode) :=
  match a.copy o fs with
  | none => none
  | some (fs1, some e) =>
    some ({ a with popup := some { title := "Error", text := e } }, fs1)
  | some (fs1, none) =>
    if isDirB fs1 (App.src_obj a) then
      match o.remove_dir_err (App.src_obj a) with
      | some e =>
        some ({ a with
          popup := some { title := "Error", text := deleteErrMsg (App.src_obj a) e } }, fs1)
      | none =>
        some (App.refresh (removePath fs1 (App.src_obj a)) a,
          removePath fs1 (App.src_obj a))
    else
      match removeFilePrim o fs1 (App.src_obj a) with
      | (_, some e) =>
        some ({ a with
          popup := some { title := "Error", text := deleteErrMsg (App.src_obj a) e } }, fs1)
      | (fs2, none) => some (App.refresh fs2 a, fs2)

/-- `App::delete_objects`: delete the active panel's selected object
(recursively for a directory), surface a failure in the popup, and on
success re-list only the active panel. -/
def App.delete_objects (o : Oracle) (fs : FsNode) (a : App) : App × FsNode :=
  if isDirB fs (App.src_obj a) then
    match o.remove_dir_err (App.src_obj a) with
    | some e =>
      ({ a with
        popup := some { title := "Error", text := removeRecErrMsg (App.src_obj a) e } }, fs)
    | none =>
      (a.with_cur_panel
        (Panel.update_items (removePath fs (App.src_obj a)) a.get_cur_panel),
        removePath fs (App.src_obj a))
  else
    match removeFilePrim o fs (App.src_obj a) with
    | (_, some e) =>
      ({ a with
        popup := some { title := "Error", text := removeErrMsg (App.src_obj a) e } }, fs)
    | (fs2, none) =>
      (a.with_cur_panel (Panel.update_items fs2 a.get_cur_panel), fs2)

/-- `App::open_dir` (descend): forwarded to the active panel, then the
search string is cleared. -/
def App.open_dir (fs : FsNode) (a : App) : App :=
  { a.with_cur_panel (Panel.open_dir fs a.get_cur_panel) with search_str := "" }

/-- `App::leave_dir` (ascend). -/
def App.leave_dir (fs : FsNode) (a : App) : App :=
  { a.with_cur_panel (Panel.leave_dir fs a.get_cur_panel) with search_str := "" }

/-- `App::jump_to_first_matching`: push the typed character onto the search
string and re-run the panel scan from the top with the whole buffer. -/
def App.jump_to_first_matching (ch : Char) (a : App) : App :=
  let s := a.search_str.push ch
  { a.with_cur_panel (Panel.jump_to_first_matching s a.get_cur_panel) with search_str := s }

/-- Sample filesystem: `/home/u` holding `a.txt`, `z.txt`, `docs/x.txt`,
`music/` (stored in raw read order `a.txt, z.txt, docs, music`), and an
empty `/home/v`. -/
def fsSample : FsNode :=
  .dir [("home", .dir [
    ("u", .dir [
      ("a.txt", .file 1),
      ("z.txt", .file 2),
      ("docs", .dir [("x.txt", .file 3)]),
      ("music", .dir [])]),
    ("v", .dir [])])]

/-- A panel freshly opened on `/home/u` of `fsSample`. -/
def pSample : Panel :=
  Panel.new fsSample ["home", "u"]

/-- A filesystem in which `/home/u` keeps only `docs`. -/
def fsShrunk : FsNode :=
  .dir [("home", .dir [("u", .dir [("docs", .dir [])])])]

/-- The filesystem `panelStale` was last listed against: `/home/u` holds
`docs` and `a.txt`. -/
def fsStale : FsNode :=
  .dir [("home", .dir [("u", .dir [("docs", .dir []), ("a.txt", .file 1)])])]

/-- A panel on `/home/u` of `fsStale` with the second entry selected. -/
def panelStale : Panel :=
  { selected := some 1
    path := ["home", "u"]
    selection_history := []
    items := [["home", "u", "docs"], ["home", "u", "a.txt"]] }

/-- The app used by the copy/move witnesses: active left panel on
`/home/u` with `docs` (index 0) selected, right panel on `/home/v`. -/
def appMove : App :=
  { cur_panel := .left
    left_panel :=
      { selected := some 0
        path := ["home", "u"]
        selection_history := []
        items := Panel.gen_items fsSample ["home", "u"] }
    right_panel := Panel.new fsSample ["home", "v"]
    search_str := ""
    popup := none }

/-- An oracle making the destination read-only: creating
`/home/v/docs` fails. -/
def oracleRO : Oracle :=
  { Oracle.ok with
    create_dir_err := fun p =>
      if p = ["home", "v", "docs"] then some "Read-only file system (os error 30)"
      else none }

/-- The error string the read-only scenario produces. -/
def eRO : String :=
  copyErrMsg ["home", "u", "docs"] ["home", "v", "docs"]
    "Read-only file system (os error 30)"

/-- Success of the delete phase of `App::move_objects`: the oracle lets the
removal succeed (and, for the `fs::remove_file` branch, the source is an
existing regular file). -/
def moveRemoveOk (o : Oracle) (fs1 : FsNode) (p : FPath) : Bool :=
  if isDirB fs1 p then (o.remove_dir_err p).isNone
  else (o.remove_file_err p).isNone &&
    (match fsLookup fs1 p with
      | some (.file _) => true
      | _ => false)

/-- The filesystem after copying `/home/u/docs` into `/home/v`. -/
def fsAfterCopy : FsNode :=
  .dir [("home", .dir [
    ("u", .dir [
      ("a.txt", .file 1),
      ("z.txt", .file 2),
      ("docs", .dir [("x.txt", .file 3)]),
      ("music", .dir [])]),
    ("v", .dir [("docs", .dir [("x.txt", .file 3)])])])]

/-- An app whose active (left) panel is on the empty directory `/home/v`:
no entry is selected. -/
def appNoSel : App :=
  { cur_panel := .left
    left_panel := Panel.new fsSample ["home", "v"]
    right_panel := Panel.new fsSample ["home", "u"]
    search_str := ""
    popup := none }

/-- Is the root of the filesystem a directory (true of any real root)? -/
def rootIsDir : FsNode → Bool
  | .dir _ => true
  | .file _ => false

theorem chCmp_eq_iff (a b : Char) : chCmp a b = .eq ↔ a = b := by
  unfold chCmp
  split
  · constructor
    · intro h; cases h
    · intro h; subst h; omega
  · split
    · constructor
      · intro h; cases h
      · intro h; subst h; omega
    · constructor
      · intro _
        apply Char.ext
        apply UInt32.toNat.inj
        show a.toNat = b.toNat
        omega
      · intro _; rfl

theorem chCmp_swap (a b : Char) : chCmp a b = (chCmp b a).swap := by
  unfold chCmp
  rcases Nat.lt_trichotomy a.toNat b.toNat with h | h | h
  · rw [if_pos h, if_neg (Nat.lt_asymm h), if_pos h]
    rfl
  · simp [h, Nat.lt_irrefl, Ordering.swap]
  · rw [if_neg (Nat.lt_asymm h), if_pos h, if_pos h]
    rfl

theorem chCmp_lt_trans {a b c : Char} (h1 : chCmp a b = .lt) (h2 : chCmp b c = .lt) :
    chCmp a c = .lt := by
  unfold chCmp at *
  split at h1 <;> split at h2 <;> simp_all <;> omega

theorem strCmpL_eq_iff : ∀ x y : List Char, strCmpL x y = .eq ↔ x = y := by
  intro x
  induction x with
  | nil => intro y; cases y <;> simp [strCmpL]
  | cons a as ih =>
    intro y
    cases y with
    | nil => simp [strCmpL]
    | cons b bs =>
      simp only [strCmpL]
      rcases h : chCmp a b with hc | hc | hc
      · simp only []
        constructor
        · intro hx; cases hx
        · intro hx
          injection hx with h1 h2
          subst h1
          rw [(chCmp_eq_iff a a).mpr rfl] at h
          cases h
      · have hab : a = b := (chCmp_eq_iff a b).mp h
        subst hab
        simp [ih bs]
      · constructor
        · intro hx; cases hx
        · intro hx
          injection hx with h1 h2
          subst h1
          rw [(chCmp_eq_iff a a).mpr rfl] at h
          cases h

theorem strCmpL_swap : ∀ x y : List Char, strCmpL x y = (strCmpL y x).swap := by
  intro x
  induction x with
  | nil => intro y; cases y <;> simp [strCmpL, Ordering.swap]
  | cons a as ih =>
    intro y
    cases y with
    | nil => simp [strCmpL, Ordering.swap]
    | cons b bs =>
      simp only [strCmpL]
      rw [chCmp_swap a b]
      rcases chCmp b a with _ | _ | _ <;> simp [Ordering.swap, ih bs]

theorem strCmpL_le_trans : ∀ {x y z : List Char},
    strCmpL x y ≠ .gt → strCmpL y z ≠ .gt → strCmpL x z ≠ .gt := by
  intro x
  induction x with
  | nil =>
    intro y z _ _
    cases z <;> simp [strCmpL]
  | cons a as ih =>
    intro y z h1 h2
    cases y with
    | nil => simp [strCmpL] at h1
    | cons b bs =>
      cases z with
      | nil => simp [strCmpL] at h2
      | cons c cs =>
        simp only [strCmpL] at h1 h2 ⊢
        rcases hab : chCmp a b with _ | _ | _ <;> rw [hab] at h1 <;>
          rcases hbc : chCmp b c with _ | _ | _ <;> rw [hbc] at h2 <;>
          try simp_all
        · -- a < b, b < c
          rw [chCmp_lt_trans hab hbc]
          simp
        · -- a < b, b = c
          have : b = c := (chCmp_eq_iff b c).mp hbc
          subst this
          rw [hab]
          simp
        · -- a = b, b < c
          have : a = b := (chCmp_eq_iff a b).mp hab
          subst this
          rw [hbc]
          simp
        · -- a = b, b = c
          have e1 : a = b := (chCmp_eq_iff a b).mp hab
          have e2 : b = c := (chCmp_eq_iff b c).mp hbc
          subst e1; subst e2
          rw [(chCmp_eq_iff a a).mpr rfl]
          exact ih h1 h2

theorem strCmp_eq_iff (a b : String) : strCmp a b = .eq ↔ a = b := by
  unfold strCmp
  rw [strCmpL_eq_iff]
  constructor
  · intro h
    have := congrArg String.mk h
    simpa using this
  · intro h; rw [h]

theorem strCmp_swap (a b : String) : strCmp a b = (strCmp b a).swap :=
  strCmpL_swap a.toList b.toList

theorem strCmp_le_trans {a b c : String} (h1 : strCmp a b ≠ .gt) (h2 : strCmp b c ≠ .gt) :
    strCmp a c ≠ .gt :=
  strCmpL_le_trans h1 h2

theorem pathCmp_eq_iff : ∀ x y : FPath, pathCmp x y = .eq ↔ x = y := by
  intro x
  induction x with
  | nil => intro y; cases y <;> simp [pathCmp]
  | cons a as ih =>
    intro y
    cases y with
    | nil => simp [pathCmp]
    | cons b bs =>
      simp only [pathCmp]
      rcases h : strCmp a b with _ | _ | _
      · constructor
        · intro hx; cases hx
        · intro hx
          injection hx with h1 _
          subst h1
          rw [(strCmp_eq_iff a a).mpr rfl] at h
          cases h
      · have hab : a = b := (strCmp_eq_iff a b).mp h
        subst hab
        simp [ih bs]
      · constructor
        · intro hx; cases hx
        · intro hx
          injection hx with h1 _
          subst h1
          rw [(strCmp_eq_iff a a).mpr rfl] at h
          cases h

theorem pathCmp_swap : ∀ x y : FPath, pathCmp x y = (pathCmp y x).swap := by
  intro x
  induction x with
  | nil => intro y; cases y <;> simp [pathCmp, Ordering.swap]
  | cons a as ih =>
    intro y
    cases y with
    | nil => simp [pathCmp, Ordering.swap]
    | cons b bs =>
      simp only [pathCmp]
      rw [strCmp_swap a b]
      rcases strCmp b a with _ | _ | _ <;> simp [Ordering.swap, ih bs]

theorem pathCmp_le_trans : ∀ {x y z : FPath},
    pathCmp x y ≠ .gt → pathCmp y z ≠ .gt → pathCmp x z ≠ .gt := by
  intro x
  induction x with
  | nil =>
    intro y z _ _
    cases z <;> simp [pathCmp]
  | cons a as ih =>
    intro y z h1 h2
    cases y with
    | nil => simp [pathCmp] at h1
    | cons b bs =>
      cases z with
      | nil => simp [pathCmp] at h2
      | cons c cs =>
        simp only [pathCmp] at h1 h2 ⊢
        rcases hab : strCmp a b with _ | _ | _ <;> rw [hab] at h1 <;>
          rcases hbc : strCmp b c with _ | _ | _ <;> rw [hbc] at h2 <;>
          try simp_all
        · have hac : strCmp a c ≠ .gt := by
            have e1 : strCmp a b ≠ .gt := by rw [hab]; simp
            have e2 : strCmp b c ≠ .gt := by rw [hbc]; simp
            exact strCmp_le_trans e1 e2
          have hne : strCmp a c ≠ .eq := by
            intro he
            have : a = c := (strCmp_eq_iff a c).mp he
            subst this
            rw [strCmp_swap a b] at hab
            rcases h : strCmp b a with _ | _ | _ <;> rw [h] at hab <;>
              simp [Ordering.swap] at hab <;> simp [h] at hbc
          rcases h : strCmp a c with _ | _ | _ <;> simp_all
        · have : b = c := (strCmp_eq_iff b c).mp hbc
          subst this
          rw [hab]
          simp
        · have : a = b := (strCmp_eq_iff a b).mp hab
          subst this
          rw [hbc]
          simp
        · have e1 : a = b := (strCmp_eq_iff a b).mp hab
          have e2 : b = c := (strCmp_eq_iff b c).mp hbc
          subst e1; subst e2
          rw [(strCmp_eq_iff a a).mpr rfl]
          exact ih h1 h2

theorem pathCmp_append_cancel : ∀ (p : FPath) (x y : FPath),
    pathCmp (p ++ x) (p ++ y) = pathCmp x y := by
  intro p
  induction p with
  | nil => intro x y; rfl
  | cons a as ih =>
    intro x y
    simp only [List.cons_append, pathCmp]
    rw [(strCmp_eq_iff a a).mpr rfl]
    exact ih x y

theorem childFind_replace_self (cs : List (String × FsNode)) (n : String) (v : FsNode)
    (h : (childFind cs n).isSome) : childFind (childReplace cs n v) n = some v := by
  induction cs with
  | nil => simp [childFind] at h
  | cons e cs ih =>
    obtain ⟨m, c⟩ := e
    by_cases hm : m = n
    · subst hm
      simp [childFind, childReplace]
    · simp only [childFind, childReplace, if_neg hm] at h ⊢
      exact ih h

theorem childFind_replace_other (cs : List (String × FsNode)) (n k : String) (v : FsNode)
    (h : k ≠ n) : childFind (childReplace cs n v) k = childFind cs k := by
  induction cs with
  | nil => simp [childFind, childReplace]
  | cons e cs ih =>
    obtain ⟨m, c⟩ := e
    by_cases hm : m = n
    · subst hm
      simp [childFind, childReplace, if_neg (Ne.symm h), if_neg h]
    · simp only [childReplace, if_neg hm, childFind]
      split
      · rfl
      · exact ih

theorem childFind_erase_self (cs : List (String × FsNode)) (n : String) :
    childFind (childErase cs n) n = none := by
  induction cs with
  | nil => rfl
  | cons e cs ih =>
    obtain ⟨m, c⟩ := e
    by_cases hm : m = n
    · subst hm
      rw [childErase, List.filter_cons_of_neg (by simp)]
      exact ih
    · rw [childErase, List.filter_cons_of_pos (by simpa using hm)]
      simp only [childFind, if_neg hm]
      exact ih

theorem childFind_erase_other (cs : List (String × FsNode)) (n k : String) (h : k ≠ n) :
    childFind (childErase cs n) k = childFind cs k := by
  induction cs with
  | nil => rfl
  | cons e cs ih =>
    obtain ⟨m, c⟩ := e
    by_cases hm : m = n
    · subst hm
      rw [childErase, List.filter_cons_of_neg (by simp)]
      rw [show childFind ((m, c) :: cs) k = childFind cs k by
        simp [childFind, if_neg (Ne.symm h)]]
      exact ih
    · rw [childErase, List.filter_cons_of_pos (by simpa using hm)]
      simp only [childFind]
      split
      · rfl
      · exact ih

theorem childFind_append_other (cs : List (String × FsNode)) (n k : String) (v : FsNode)
    (h : k ≠ n) : childFind (cs ++ [(n, v)]) k = childFind cs k := by
  induction cs with
  | nil => simp [childFind, if_neg (Ne.symm h)]
  | cons e cs ih =>
    obtain ⟨m, c⟩ := e
    simp only [List.cons_append, childFind]
    split
    · rfl
    · exact ih

theorem childFind_append_self (cs : List (String × FsNode)) (n : String) (v : FsNode)
    (h : childFind cs n = none) : childFind (cs ++ [(n, v)]) n = some v := by
  induction cs with
  | nil => simp [childFind]
  | cons e cs ih =>
    obtain ⟨m, c⟩ := e
    simp only [childFind] at h
    simp only [List.cons_append, childFind]
    split at h
    · cases h
    · rename_i hm
      rw [if_neg hm]
      exact ih h

theorem fsLookup_dir (cs : List (String × FsNode)) (k : String) (qr : FPath) :
    fsLookup (.dir cs) (k :: qr) =
      match childFind cs k with
      | some c => fsLookup c qr
      | none => none := rfl

theorem fsLookup_fsModify_disjoint : ∀ (p : FPath) (t : FsNode) (q : FPath)
    (f : Option FsNode → Option FsNode),
    ¬ p <+: q → ¬ q <+: p → fsLookup (fsModify t p f) q = fsLookup t q := by
  intro p
  induction p with
  | nil =>
    intro t q f h1 _
    exact absurd (List.nil_prefix) h1
  | cons n p' ih =>
    intro t q f h1 h2
    cases q with
    | nil => exact absurd (List.nil_prefix) h2
    | cons k qr =>
      cases t with
      | file d => rfl
      | dir cs =>
        by_cases hk : k = n
        · subst hk
          cases p' with
          | nil =>
            exact absurd (List.cons_prefix_cons.mpr ⟨rfl, List.nil_prefix⟩) h1
          | cons m rest =>
            have hq1 : ¬ (m :: rest) <+: qr := by
              intro h
              exact h1 (List.cons_prefix_cons.mpr ⟨rfl, h⟩)
            have hq2 : ¬ qr <+: (m :: rest) := by
              intro h
              exact h2 (List.cons_prefix_cons.mpr ⟨rfl, h⟩)
            simp only [fsModify]
            rcases hf : childFind cs k with _ | c
            · rfl
            · rw [fsLookup_dir, fsLookup_dir,
                childFind_replace_self cs k _ (by rw [hf]; rfl), hf]
              exact ih _ qr f hq1 hq2
        · cases p' with
          | nil =>
            simp only [fsModify]
            rcases hf : childFind cs n with _ | c
            · rcases hv : f none with _ | v
              · rfl
              · rw [fsLookup_dir, fsLookup_dir, childFind_append_other cs n k v hk]
            · rcases hv : f (some c) with _ | v
              · simp only [hv]
                rw [fsLookup_dir, fsLookup_dir, childFind_erase_other cs n k hk]
              · simp only [hv]
                rw [fsLookup_dir, fsLookup_dir, childFind_replace_other cs n k v hk]
          | cons m rest =>
            simp only [fsModify]
            rcases hf : childFind cs n with _ | c
            · rfl
            · rw [fsLookup_dir, fsLookup_dir, childFind_replace_other cs n k _ hk]

theorem fsLookup_removePath_self : ∀ (p : FPath) (t : FsNode), p ≠ [] →
    fsLookup (removePath t p) p = none := by
  intro p
  induction p with
  | nil => intro t h; exact absurd rfl h
  | cons n p' ih =>
    intro t _
    cases t with
    | file d =>
      cases p' <;> rfl
    | dir cs =>
      cases p' with
      | nil =>
        simp only [removePath, fsModify]
        rcases hf : childFind cs n with _ | c
        · rw [fsLookup_dir, hf]
        · rw [fsLookup_dir, childFind_erase_self]
      | cons m rest =>
        simp only [removePath, fsModify] at ih ⊢
        rcases hf : childFind cs n with _ | c
        · rw [fsLookup_dir, hf]
        · rw [fsLookup_dir, childFind_replace_self cs n _ (by rw [hf]; rfl)]
          exact ih c (by simp)

theorem fsLookup_mkdirAll_fresh : ∀ (p q : FPath),
    ¬ p <+: q → ¬ q <+: p → fsLookup (mkdirAll (.dir []) p) q = none := by
  intro p
  induction p with
  | nil =>
    intro q h1 _
    exact absurd List.nil_prefix h1
  | cons n p' ih =>
    intro q h1 h2
    cases q with
    | nil => exact absurd List.nil_prefix h2
    | cons k qr =>
      simp only [mkdirAll, childFind]
      by_cases hk : k = n
      · subst hk
        rw [fsLookup_dir]
        simp only [childFind, if_pos rfl]
        have hq1 : ¬ p' <+: qr := fun h => h1 (List.cons_prefix_cons.mpr ⟨rfl, h⟩)
        have hq2 : ¬ qr <+: p' := fun h => h2 (List.cons_prefix_cons.mpr ⟨rfl, h⟩)
        exact ih qr hq1 hq2
      · rw [fsLookup_dir]
        have hnk : ¬ (n = k) := fun h => hk (Eq.symm h)
        simp only [childFind, if_neg hnk]

theorem fsLookup_mkdirAll_disjoint : ∀ (p : FPath) (t : FsNode) (q : FPath),
    ¬ p <+: q → ¬ q <+: p → fsLookup (mkdirAll t p) q = fsLookup t q := by
  intro p
  induction p with
  | nil =>
    intro t q h1 _
    exact absurd List.nil_prefix h1
  | cons n p' ih =>
    intro t q h1 h2
    cases q with
    | nil => exact absurd List.nil_prefix h2
    | cons k qr =>
      cases t with
      | file d => rfl
      | dir cs =>
        simp only [mkdirAll]
        rcases hf : childFind cs n with _ | c
        · by_cases hk : k = n
          · subst hk
            rw [fsLookup_dir, fsLookup_dir, childFind_append_self cs k _ hf, hf]
            have hq1 : ¬ p' <+: qr := fun h => h1 (List.cons_prefix_cons.mpr ⟨rfl, h⟩)
            have hq2 : ¬ qr <+: p' := fun h => h2 (List.cons_prefix_cons.mpr ⟨rfl, h⟩)
            exact fsLookup_mkdirAll_fresh p' qr hq1 hq2
          · rw [fsLookup_dir, fsLookup_dir, childFind_append_other cs n k _ hk]
        · by_cases hk : k = n
          · subst hk
            rw [fsLookup_dir, fsLookup_dir,
              childFind_replace_self cs k _ (by rw [hf]; rfl), hf]
            have hq1 : ¬ p' <+: qr := fun h => h1 (List.cons_prefix_cons.mpr ⟨rfl, h⟩)
            have hq2 : ¬ qr <+: p' := fun h => h2 (List.cons_prefix_cons.mpr ⟨rfl, h⟩)
            exact ih c qr hq1 hq2
          · rw [fsLookup_dir, fsLookup_dir, childFind_replace_other cs n k _ hk]

theorem length_sortEntries (d : FPath → Bool) (raw : List FPath) :
    (sortEntries d raw).length = raw.length :=
  List.length_insertionSort _ raw

theorem panelInv_items {fs : FsNode} {P : Panel} (h : panelInv fs P = true) :
    P.items = Panel.gen_items fs P.path := by
  simp only [panelInv, Bool.and_eq_true, beq_iff_eq] at h
  exact h.1.1

theorem panelInv_selOk {fs : FsNode} {P : Panel} (h : panelInv fs P = true) :
    selOk P = true := by
  simp only [panelInv, Bool.and_eq_true] at h
  exact h.1.2

theorem panelInv_hist {fs : FsNode} {P : Panel} (h : panelInv fs P = true) :
    histOkR fs P.path P.selection_history.reverse = true := by
  simp only [panelInv, Bool.and_eq_true] at h
  exact h.2

theorem panelInv_mk {fs : FsNode} {P : Panel}
    (h1 : P.items = Panel.gen_items fs P.path) (h2 : selOk P = true)
    (h3 : histOkR fs P.path P.selection_history.reverse = true) :
    panelInv fs P = true := by
  simp only [panelInv, Bool.and_eq_true, beq_iff_eq]
  exact ⟨⟨h1, h2⟩, h3⟩

theorem selOk_some {P : Panel} {i : Nat} (h : selOk P = true) (hs : P.selected = some i) :
    i < P.items.length := by
  unfold selOk at h
  rw [hs] at h
  simpa using h

theorem selOk_none {P : Panel} (h : selOk P = true) (hs : P.selected = none) :
    P.items = [] := by
  unfold selOk at h
  rw [hs] at h
  simpa using h

theorem open_dir_panelInv (fs : FsNode) (P : Panel) (h : panelInv fs P = true) :
    panelInv fs (Panel.open_dir fs P) = true := by
  unfold Panel.open_dir
  rcases hs : P.selected with _ | sel
  · exact h
  · simp only []
    by_cases hd : isDirB fs (P.items.getD sel []) = true
    · rw [if_pos hd]
      rcases hn : (P.items.getD sel []).getLast? with _ | n
    
      · exact h
      · simp only []
        apply panelInv_mk
        · rfl
        · unfold selOk
          by_cases hl : (Panel.gen_items fs (P.path ++ [n])).length < 1
          · simp only [if_pos hl]
            simpa using List.length_eq_zero.mp (by omega)
          · simp only [if_neg hl]
            simpa using (by omega : 0 < (Panel.gen_items fs (P.path ++ [n])).length)
        · show histOkR fs (P.path ++ [n]) (P.selection_history ++ [sel]).reverse = true
          rw [List.reverse_concat]
          unfold histOkR
          simp only [Bool.and_eq_true]
          refine ⟨⟨?_, ?_⟩, ?_⟩
          · simp
          · rw [List.dropLast_concat]
            have := selOk_some (panelInv_selOk h) hs
            rw [panelInv_items h] at this
            simpa using this
          · rw [List.dropLast_concat]
            exact panelInv_hist h
    · rw [if_neg hd]
      exact h

theorem leave_dir_panelInv (fs : FsNode) (P : Panel) (h : panelInv fs P = true) :
    panelInv fs (Panel.leave_dir fs P) = true := by
  unfold Panel.leave_dir
  by_cases hp : P.path.isEmpty = true
  · rw [if_pos hp]
    exact h
  · rw [if_neg hp]
    rcases hh : P.selection_history.getLast? with _ | x
    · simp only []
      apply panelInv_mk
      · rfl
      · unfold selOk
        by_cases hl : (Panel.gen_items fs P.path.dropLast).length < 1
        · simp only [if_pos hl]
          simpa using List.length_eq_zero.mp (by omega)
        · simp only [if_neg hl]
          simpa using (by omega : 0 < (Panel.gen_items fs P.path.dropLast).length)
      · have hnil : P.selection_history = [] := by
          rcases hl : P.selection_history with _ | ⟨y, ys⟩
          · rfl
          · rw [hl] at hh
            simp [List.getLast?_concat] at hh
        simp [hnil, histOkR]
    · simp only []
      obtain ⟨ys, hys⟩ := List.getLast?_eq_some_iff.mp hh
      have hrev : P.selection_history.reverse = x :: ys.reverse := by
        rw [hys, List.reverse_concat]
      have hhist := panelInv_hist h
      rw [hrev] at hhist
      unfold histOkR at hhist
      simp only [Bool.and_eq_true] at hhist
      apply panelInv_mk
      · rfl
      · unfold selOk
        simpa using hhist.1.2
      · show histOkR fs P.path.dropLast (P.selection_history.dropLast).reverse = true
        rw [hys, List.dropLast_concat]
        exact hhist.2

theorem next_panelInv (fs : FsNode) (P : Panel) (h : panelInv fs P = true) :
    panelInv fs (Panel.next P) = true := by
  unfold Panel.next
  apply panelInv_mk
  · show P.items = Panel.gen_items fs P.path
    exact panelInv_items h
  · unfold selOk
    rcases hs : P.selected with _ | i
    · simpa using selOk_none (panelInv_selOk h) hs
    · have hi := selOk_some (panelInv_selOk h) hs
      by_cases hb : i ≥ P.items.length - 1
      · simp only [if_pos hb]
        simpa using hi
      · simp only [if_neg hb]
        simp only [decide_eq_true_eq]
        omega
  · show histOkR fs P.path P.selection_history.reverse = true
    exact panelInv_hist h

theorem previous_panelInv (fs : FsNode) (P : Panel) (h : panelInv fs P = true) :
    panelInv fs (Panel.previous P) = true := by
  unfold Panel.previous
  apply panelInv_mk
  · show P.items = Panel.gen_items fs P.path
    exact panelInv_items h
  · unfold selOk
    rcases hs : P.selected with _ | i
    · simpa using selOk_none (panelInv_selOk h) hs
    · have hi := selOk_some (panelInv_selOk h) hs
      by_cases hb : i = 0
      · simp only [if_pos hb]
        simpa using hi
      · simp only [if_neg hb]
        simp only [decide_eq_true_eq]
        omega
  · show histOkR fs P.path P.selection_history.reverse = true
    exact panelInv_hist h

theorem begin_panelInv (fs : FsNode) (P : Panel) (h : panelInv fs P = true) :
    panelInv fs (Panel.begin P) = true := by
  unfold Panel.begin
  by_cases hl : P.items.length < 1
  · rw [if_pos hl]
    apply panelInv_mk
    · show P.items = Panel.gen_items fs P.path
      exact panelInv_items h
    · unfold selOk
      simpa using List.length_eq_zero.mp (by omega)
    · show histOkR fs P.path P.selection_history.reverse = true
      exact panelInv_hist h
  · rw [if_neg hl]
    apply panelInv_mk
    · show P.items = Panel.gen_items fs P.path
      exact panelInv_items h
    · unfold selOk
      simp only [decide_eq_true_eq]
      omega
    · show histOkR fs P.path P.selection_history.reverse = true
      exact panelInv_hist h

theorem endSel_panelInv (fs : FsNode) (P : Panel) (h : panelInv fs P = true) :
    panelInv fs (Panel.endSel P) = true := by
  unfold Panel.endSel
  by_cases hl : P.items.length < 1
  · rw [if_pos hl]
    apply panelInv_mk
    · show P.items = Panel.gen_items fs P.path
      exact panelInv_items h
    · unfold selOk
      simpa using List.length_eq_zero.mp (by omega)
    · show histOkR fs P.path P.selection_history.reverse = true
      exact panelInv_hist h
  · rw [if_neg hl]
    apply panelInv_mk
    · show P.items = Panel.gen_items fs P.path
      exact panelInv_items h
    · unfold selOk
      simp only [decide_eq_true_eq]
      omega
    · show histOkR fs P.path P.selection_history.reverse = true
      exact panelInv_hist h

theorem jumpAux_lt : ∀ (q : String) (l : List FPath) (k i : Nat),
    jumpAux q l k = some i → k ≤ i ∧ i < k + l.length := by
  intro q l
  induction l with
  | nil => intro k i h; cases h
  | cons e rest ih =>
    intro k i h
    unfold jumpAux at h
    by_cases hc : strContains (fileNameStr e) q = true
    · rw [if_pos hc] at h
      injection h with h
      subst h
      simp
    · rw [if_neg hc] at h
      have := ih (k + 1) i h
      simp only [List.length_cons]
      omega

theorem jump_panelInv (fs : FsNode) (q : String) (P : Panel) (h : panelInv fs P = true) :
    panelInv fs (Panel.jump_to_first_matching q P) = true := by
  unfold Panel.jump_to_first_matching
  rcases hj : jumpAux q P.items 0 with _ | i
  · exact h
  · simp only []
    apply panelInv_mk
    · show P.items = Panel.gen_items fs P.path
      exact panelInv_items h
    · unfold selOk
      have := (jumpAux_lt q P.items 0 i hj).2
      simp only [decide_eq_true_eq]
      omega
    · show histOkR fs P.path P.selection_history.reverse = true
      exact panelInv_hist h

theorem update_items_selected (fs : FsNode) (P : Panel) :
    (Panel.update_items fs P).selected = P.selected := rfl

theorem update_items_panelInv_same_fs (fs : FsNode) (P : Panel)
    (h : panelInv fs P = true) : Panel.update_items fs P = P := by
  unfold Panel.update_items
  have := panelInv_items h
  cases P
  simp_all

theorem pathCmp_single (a b : String) : pathCmp [a] [b] = strCmp a b := by
  unfold pathCmp
  rcases h : strCmp a b with _ | _ | _ <;> simp [h, pathCmp]

theorem entryCmp_eq_iff (d : FPath → Bool) (x y : FPath) :
    entryCmp d x y = .eq ↔ x = y := by
  unfold entryCmp
  by_cases hx : d x = true <;> by_cases hy : d y = true <;>
    simp [hx, hy, pathCmp_eq_iff] <;>
    (intro h; subst h; simp_all)

theorem entryCmp_swap (d : FPath → Bool) (x y : FPath) :
    entryCmp d x y = (entryCmp d y x).swap := by
  unfold entryCmp
  by_cases hx : d x = true <;> by_cases hy : d y = true <;>
    simp [hx, hy, pathCmp_swap x y, Ordering.swap]

theorem entryCmp_total (d : FPath → Bool) (x y : FPath) :
    entryCmp d x y ≠ .gt ∨ entryCmp d y x ≠ .gt := by
  by_cases h : entryCmp d x y = .gt
  · right
    rw [entryCmp_swap d y x, h]
    simp [Ordering.swap]
  · left; exact h

theorem entryCmp_le_trans (d : FPath → Bool) {x y z : FPath}
    (h1 : entryCmp d x y ≠ .gt) (h2 : entryCmp d y z ≠ .gt) :
    entryCmp d x z ≠ .gt := by
  unfold entryCmp at *
  by_cases hx : d x = true <;> by_cases hy : d y = true <;>
    by_cases hz : d z = true <;>
    simp [hx, hy, hz] at h1 h2 ⊢ <;>
    first
      | exact pathCmp_le_trans h1 h2
      | skip

theorem entryCmp_antisymm (d : FPath → Bool) {x y : FPath}
    (h1 : entryCmp d x y ≠ .gt) (h2 : entryCmp d y x ≠ .gt) : x = y := by
  rw [entryCmp_swap d y x] at h2
  have : entryCmp d x y = .eq := by
    rcases h : entryCmp d x y with _ | _ | _
    · rw [h] at h2
      simp [Ordering.swap] at h2
    · rfl
    · exact absurd h h1
  exact (entryCmp_eq_iff d x y).mp this

theorem sortEntries_sorted (d : FPath → Bool) (raw : List FPath) :
    List.Pairwise (fun x y => entryCmp d x y ≠ .gt) (sortEntries d raw) := by
  unfold sortEntries
  exact @List.sorted_insertionSort FPath (fun x y => entryCmp d x y ≠ .gt) _
    ⟨fun x y => entryCmp_total d x y⟩ ⟨fun _ _ _ => entryCmp_le_trans d⟩ raw

theorem sortEntries_perm (d : FPath → Bool) (raw : List FPath) :
    (sortEntries d raw).Perm raw :=
  List.perm_insertionSort _ raw

theorem sortEntries_eq_of_perm (d : FPath → Bool) {raw1 raw2 : List FPath}
    (h : raw1.Perm raw2) : sortEntries d raw1 = sortEntries d raw2 := by
  have hp : (sortEntries d raw1).Perm (sortEntries d raw2) :=
    ((sortEntries_perm d raw1).trans h).trans (sortEntries_perm d raw2).symm
  exact @List.eq_of_perm_of_sorted FPath (fun x y => entryCmp d x y ≠ .gt)
    ⟨fun _ _ => entryCmp_antisymm d⟩ _ _ hp
    (sortEntries_sorted d raw1) (sortEntries_sorted d raw2)

theorem mem_gen_items_shape {fs : FsNode} {p : FPath} {e : FPath}
    (h : e ∈ Panel.gen_items fs p) : ∃ n, e = p ++ [n] := by
  unfold Panel.gen_items at h
  have := (sortEntries_perm (isDirB fs) (readDirRaw fs p)).mem_iff.mp h
  unfold readDirRaw at this
  rcases hl : fsLookup fs p with _ | t
  · rw [hl] at this
    cases this
  · rw [hl] at this
    cases t with
    | file d =>
      cases this
    | dir cs =>
      simp only [List.mem_map] at this
      obtain ⟨c, _, hc⟩ := this
      exact ⟨c.1, hc.symm⟩

theorem fileNameStr_concat (p : FPath) (n : String) : fileNameStr (p ++ [n]) = n := by
  unfold fileNameStr
  rw [List.getLast?_concat]
  rfl

theorem listContainsSub_iff_occurs : ∀ (hay needle : List Char),
    listContainsSub hay needle = true ↔ needle <:+: hay := by
  intro hay
  induction hay with
  | nil =>
    intro needle
    unfold listContainsSub
    simp [List.isEmpty_iff]
  | cons c t ih =>
    intro needle
    unfold listContainsSub
    rw [Bool.or_eq_true, List.infix_cons_iff, ih needle,
      List.isPrefixOf_iff_prefix]

theorem strContains_iff_occurs (s q : String) :
    strContains s q = true ↔ q.toList <:+: s.toList :=
  listContainsSub_iff_occurs s.toList q.toList

theorem jumpAux_some_spec (q : String) : ∀ (l : List FPath) (k i : Nat),
    jumpAux q l k = some i →
      k ≤ i ∧ i - k < l.length ∧
        strContains (fileNameStr (l.getD (i - k) [])) q = true ∧
        ∀ j, j < i - k → strContains (fileNameStr (l.getD j [])) q = false := by
  intro l
  induction l with
  | nil => intro k i h; cases h
  | cons e rest ih =>
    intro k i h
    unfold jumpAux at h
    by_cases hc : strContains (fileNameStr e) q = true
    · rw [if_pos hc] at h
      injection h with h
      subst h
      refine ⟨Nat.le_refl _, by simp, ?_, ?_⟩
      · simpa using hc
      · intro j hj
        omega
    · rw [if_neg hc] at h
      obtain ⟨hk, hlen, hmatch, hprior⟩ := ih (k + 1) i h
      have hik : i - k = (i - (k + 1)) + 1 := by omega
      refine ⟨by omega, ?_, ?_, ?_⟩
      · simp only [List.length_cons]
        omega
      · rw [hik, List.getD_cons_succ]
        exact hmatch
      · intro j hj
        cases j with
        | zero =>
          rw [List.getD_cons_zero]
          simpa using hc
        | succ j' =>
          rw [List.getD_cons_succ]
          exact hprior j' (by omega)

theorem jumpAux_none_spec (q : String) : ∀ (l : List FPath) (k : Nat),
    jumpAux q l k = none ↔ ∀ e ∈ l, strContains (fileNameStr e) q = false := by
  intro l
  induction l with
  | nil => intro k; simp [jumpAux]
  | cons e rest ih =>
    intro k
    unfold jumpAux
    by_cases hc : strContains (fileNameStr e) q = true
    · rw [if_pos hc]
      simp [hc]
    · rw [if_neg hc]
      rw [ih (k + 1)]
      constructor
      · intro h x hx
        rcases List.mem_cons.mp hx with h1 | h1
        · subst h1
          simpa using hc
        · exact h x h1
      · intro h x hx
        exact h x (List.mem_cons_of_mem _ hx)

theorem not_prefix_of_extend {dst q : FPath} (n : String) (h : ¬ dst <+: q) :
    ¬ (dst ++ [n]) <+: q :=
  fun hc => h ((List.prefix_append dst [n]).trans hc)

theorem not_prefix_of_extend_rev {dst q : FPath} (n : String)
    (h1 : ¬ dst <+: q) (h2 : ¬ q <+: dst) : ¬ q <+: (dst ++ [n]) := by
  intro hc
  rcases List.prefix_or_prefix_of_prefix hc (List.prefix_append dst [n]) with h | h
  · exact h2 h
  · exact h1 h

mutual

theorem copyRec_lookup_disjoint (o : Oracle) (src dst : FPath)
    (cs : List (String × FsNode)) (fs : FsNode) (q : FPath)
    (h1 : ¬ dst <+: q) (h2 : ¬ q <+: dst) :
    fsLookup (copyRec o src dst cs fs).1 q = fsLookup fs q := by
  unfold copyRec
  rcases hcd : o.create_dir_err dst with _ | e
  · simp only []
    rcases hrd : o.read_dir_err src with _ | e
    · simp only []
      rw [copyRecList_lookup_disjoint o src dst cs (mkdirAll fs dst) q h1 h2]
      exact fsLookup_mkdirAll_disjoint dst fs q h1 h2
    · exact fsLookup_mkdirAll_disjoint dst fs q h1 h2
  · rfl
termination_by (sizeOf cs, 1)
decreasing_by
  simp_wf
  exact Prod.Lex.right _ (by omega)

theorem copyRecList_lookup_disjoint (o : Oracle) (src dst : FPath)
    (l : List (String × FsNode)) (fs : FsNode) (q : FPath)
    (h1 : ¬ dst <+: q) (h2 : ¬ q <+: dst) :
    fsLookup (copyRecList o src dst l fs).1 q = fsLookup fs q := by
  match l with
  | [] => simp only [copyRecList]
  | (n, .file d) :: rest =>
    unfold copyRecList
    rcases hcf : o.copy_file_err (src ++ [n]) (dst ++ [n]) with _ | e
    · simp only []
      rw [copyRecList_lookup_disjoint o src dst rest (writeFile fs (dst ++ [n]) d) q h1 h2]
      exact fsLookup_fsModify_disjoint (dst ++ [n]) fs q _
        (not_prefix_of_extend n h1) (not_prefix_of_extend_rev n h1 h2)
    · rfl
  | (n, .dir ccs) :: rest =>
    unfold copyRecList
    rcases hrec : copyRec o (src ++ [n]) (dst ++ [n]) ccs fs with ⟨fs1, e?⟩
    have hfs1 : fsLookup fs1 q = fsLookup fs q := by
      have := copyRec_lookup_disjoint o (src ++ [n]) (dst ++ [n]) ccs fs q
        (not_prefix_of_extend n h1) (not_prefix_of_extend_rev n h1 h2)
      rw [hrec] at this
      exact this
    rcases e? with _ | e
    · simp only []
      rw [copyRecList_lookup_disjoint o src dst rest fs1 q h1 h2]
      exact hfs1
    · exact hfs1
termination_by (sizeOf l, 0)
decreasing_by
  all_goals simp_wf
  all_goals first
    | exact Prod.Lex.right _ (by omega)
    | apply Prod.Lex.left
  all_goals omega

end


theorem copyErrMsg_ne_empty (src dst : FPath) (e : String) :
    copyErrMsg src dst e ≠ "" := by
  intro h
  have hlen := congrArg String.length h
  rw [copyErrMsg] at hlen
  simp only [String.length_append] at hlen
  have h15 : ("Failed to copy " : String).length = 15 := rfl
  rw [h15] at hlen
  simp at hlen

theorem App.copy_err_shape {o : Oracle} {fs fs1 : FsNode} {a : App} {e : String}
    (h : a.copy o fs = some (fs1, some e)) :
    ∃ e0, e = copyErrMsg a.src_obj a.dest_obj e0 := by
  unfold App.copy at h
  rcases hn : a.src_obj.getLast? with _ | n
  · rw [hn] at h
    cases h
  · rw [hn] at h
    simp only [] at h
    by_cases hd : isDirB fs a.src_obj = true
    · rw [if_pos hd] at h
      rcases hrec : copyRec o a.src_obj a.dest_obj (childrenOf fs a.src_obj) fs with ⟨fs1', e?⟩
      rw [hrec] at h
      rcases e? with _ | e0
      · simp at h
      · simp only [Option.some.injEq, Prod.mk.injEq, Option.some.injEq] at h
        exact ⟨e0, h.2.symm⟩
    · rw [if_neg hd] at h
      rcases hcp : copyFilePrim o fs a.src_obj a.dest_obj with ⟨fs1', e?⟩
      rw [hcp] at h
      rcases e? with _ | e0
      · simp at h
      · simp only [Option.some.injEq, Prod.mk.injEq, Option.some.injEq] at h
        exact ⟨e0, h.2.symm⟩

theorem App.copy_outside_dest {o : Oracle} {fs fs1 : FsNode} {a : App}
    {e? : Option String} (h : a.copy o fs = some (fs1, e?)) :
    ∀ q, ¬ a.dest_obj <+: q → ¬ q <+: a.dest_obj →
      fsLookup fs1 q = fsLookup fs q := by
  intro q hq1 hq2
  unfold App.copy at h
  rcases hn : a.src_obj.getLast? with _ | n
  · rw [hn] at h
    cases h
  · rw [hn] at h
    simp only [] at h
    by_cases hd : isDirB fs a.src_obj = true
    · rw [if_pos hd] at h
      rcases hrec : copyRec o a.src_obj a.dest_obj (childrenOf fs a.src_obj) fs with ⟨fs1', e0?⟩
      rw [hrec] at h
      have hpres := copyRec_lookup_disjoint o a.src_obj a.dest_obj
        (childrenOf fs a.src_obj) fs q hq1 hq2
      rw [hrec] at hpres
      rcases e0? with _ | e0
      · simp only [Option.some.injEq, Prod.mk.injEq] at h
        rw [← h.1]
        exact hpres
      · simp only [Option.some.injEq, Prod.mk.injEq] at h
        rw [← h.1]
        exact hpres
    · rw [if_neg hd] at h
      unfold copyFilePrim at h
      rcases hcf : o.copy_file_err a.src_obj a.dest_obj with _ | e0
      · rw [hcf] at h
        rcases hl : fsLookup fs a.src_obj with _ | t
        · rw [hl] at h
          simp only [Option.some.injEq, Prod.mk.injEq] at h
          rw [← h.1]
        · rw [hl] at h
          cases t with
          | file d =>
            simp only [Option.some.injEq, Prod.mk.injEq] at h
            rw [← h.1]
            exact fsLookup_fsModify_disjoint a.dest_obj fs q _ hq1 hq2
          | dir cs =>
            simp only [Option.some.injEq, Prod.mk.injEq] at h
            rw [← h.1]
      · rw [hcf] at h
        simp only [Option.some.injEq, Prod.mk.injEq] at h
        rw [← h.1]

theorem App.copy_src_untouched {o : Oracle} {fs fs1 : FsNode} {a : App}
    {e? : Option String} (h : a.copy o fs = some (fs1, e?))
    (hd1 : ¬ a.dest_obj <+: a.src_obj) (hd2 : ¬ a.src_obj <+: a.dest_obj) :
    ∀ q, fsLookup fs1 (a.src_obj ++ q) = fsLookup fs (a.src_obj ++ q) := by
  intro q
  apply App.copy_outside_dest h
  · intro hc
    rcases List.prefix_or_prefix_of_prefix hc (List.prefix_append a.src_obj q) with hp | hp
    · exact hd1 hp
    · exact hd2 hp
  · intro hc
    exact hd2 ((List.prefix_append a.src_obj q).trans hc)

theorem App.copy_some_src_ne_nil {o : Oracle} {fs : FsNode} {a : App}
    {r : FsNode × Option String} (h : a.copy o fs = some r) :
    a.src_obj ≠ [] := by
  intro hnil
  unfold App.copy at h
  rw [hnil] at h
  cases h

/-- C1, counterexample: the spec says `refresh()` clamps the selection to
the new listing length.  `Panel::update_items` does not touch the
selection: starting from a valid panel (two entries, index 1 selected) and
refreshing against a filesystem whose listing shrank to one entry, the
selection stays at index 1, out of bounds — the selection invariant is
violated, and nothing was clamped. -/
theorem refresh_does_not_clamp_counterexample :
    panelInv fsStale panelStale = true ∧
    (Panel.update_items fsShrunk panelStale).items.length = 1 ∧
    (Panel.update_items fsShrunk panelStale).selected = some 1 ∧
    selOk (Panel.update_items fsShrunk panelStale) = false := by
  decide

/-- C1, amended: with the filesystem unchanged, every navigation operation
(descend, ascend, move next/previous/start/end, search jump) preserves the
selection invariant (together with the listing-coherence and
history-validity invariants it depends on); `update_items` (refresh),
however, leaves the selection exactly as it was — it performs no clamping,
so the invariant can break when a refresh against a changed filesystem
shortens the listing. -/
theorem selection_invariant_amended (fs fs2 : FsNode) (q : String) (P : Panel)
    (h : panelInv fs P = true) :
    panelInv fs (Panel.open_dir fs P) = true ∧
    panelInv fs (Panel.leave_dir fs P) = true ∧
    panelInv fs (Panel.next P) = true ∧
    panelInv fs (Panel.previous P) = true ∧
    panelInv fs (Panel.begin P) = true ∧
    panelInv fs (Panel.endSel P) = true ∧
    panelInv fs (Panel.jump_to_first_matching q P) = true ∧
    (Panel.update_items fs2 P).selected = P.selected :=
  ⟨open_dir_panelInv fs P h, leave_dir_panelInv fs P h, next_panelInv fs P h,
    previous_panelInv fs P h, begin_panelInv fs P h, endSel_panelInv fs P h,
    jump_panelInv fs q P h, update_items_selected fs2 P⟩

/-- C1, witness: the amended theorem applied to the `/home/u` panel of
`fsSample`. -/
theorem selection_invariant_amended_witness :
    panelInv fsSample (Panel.open_dir fsSample pSample) = true ∧
    (Panel.update_items fsShrunk pSample).selected = pSample.selected :=
  ⟨(selection_invariant_amended fsSample fsShrunk "a" pSample (by decide)).1,
    (selection_invariant_amended fsSample fsShrunk "a" pSample (by decide)).2.2.2.2.2.2.2⟩

/-- C8: with the selection invariant in force, `Panel::next` at the last
index and `Panel::previous` at index 0 are exact no-ops (the whole panel
state is unchanged — the selection clamps at the ends and never wraps), and
on an empty listing both operations leave the selection `None`. -/
theorem boundary_moves_noop (P : Panel) (h : selOk P = true) :
    (P.selected = some (P.items.length - 1) → Panel.next P = P) ∧
    (P.selected = some 0 → Panel.previous P = P) ∧
    (P.items = [] →
      (Panel.next P).selected = none ∧ (Panel.previous P).selected = none) := by
  refine ⟨?_, ?_, ?_⟩
  · intro hs
    unfold Panel.next
    rw [hs]
    simp only [ge_iff_le, le_refl, if_pos]
    cases P
    simp_all
  · intro hs
    unfold Panel.previous
    rw [hs]
    simp only [if_pos rfl]
    cases P
    simp_all
  · intro hi
    have : P.selected = none := by
      rcases hs : P.selected with _ | i
      · rfl
      · have := selOk_some h hs
        rw [hi] at this
        simp at this
    unfold Panel.next Panel.previous
    rw [this]
    exact ⟨rfl, rfl⟩

/-- C8, witness: the `/home/u` panel of `fsSample` moved to its last entry
does not move further; at the first entry `previous` does not move. -/
theorem boundary_moves_noop_witness :
    Panel.next (Panel.endSel pSample) = Panel.endSel pSample ∧
    Panel.previous pSample = pSample :=
  ⟨(boundary_moves_noop (Panel.endSel pSample) (by decide)).1 (by decide),
    (boundary_moves_noop pSample (by decide)).2.1 (by decide)⟩

/-- C6: from a valid panel whose selected entry is a directory, descending
(`open_dir`) and then ascending (`leave_dir`) with the filesystem unchanged
restores the exact selection index that was active before the descend — in
fact the whole panel state. -/
theorem descend_ascend_restores_selection (fs : FsNode) (P : Panel) (i : Nat)
    (h : panelInv fs P = true) (hs : P.selected = some i)
    (hd : isDirB fs (P.items.getD i []) = true) :
    Panel.leave_dir fs (Panel.open_dir fs P) = P ∧
    (Panel.leave_dir fs (Panel.open_dir fs P)).selected = some i := by
  have hlt : i < P.items.length := selOk_some (panelInv_selOk h) hs
  have hmem : P.items.getD i [] ∈ P.items := by
    rw [List.getD_eq_getElem P.items [] hlt]
    exact List.getElem_mem hlt
  obtain ⟨n, hn⟩ := mem_gen_items_shape (by rw [← panelInv_items h]; exact hmem)
  have hopen : Panel.open_dir fs P =
      { selected :=
          if (Panel.gen_items fs (P.path ++ [n])).length < 1 then none else some 0
        path := P.path ++ [n]
        selection_history := P.selection_history ++ [i]
        items := Panel.gen_items fs (P.path ++ [n]) } := by
    unfold Panel.open_dir
    rw [hs]
    simp only []
    rw [if_pos hd, hn, List.getLast?_concat]
  have hmain : Panel.leave_dir fs (Panel.open_dir fs P) = P := by
    rw [hopen]
    unfold Panel.leave_dir
    rw [if_neg (by simp)]
    simp only [List.dropLast_concat, List.getLast?_concat]
    have hitems := panelInv_items h
    cases P
    simp_all
  exact ⟨hmain, by rw [hmain, hs]⟩

/-- C6, witness: descending into `docs` (index 0) of the `/home/u` panel
and ascending restores selection 0. -/
theorem descend_ascend_restores_selection_witness :
    Panel.leave_dir fsSample (Panel.open_dir fsSample pSample) = pSample ∧
    (Panel.leave_dir fsSample (Panel.open_dir fsSample pSample)).selected = some 0 :=
  descend_ascend_restores_selection fsSample pSample 0 (by decide) (by decide) (by decide)

/-- C7: `jump_to_first_matching` scans the listing from index 0 and selects
the first entry whose file name contains the query — where "contains" is
case-sensitive substring occurrence (first conjunct relates the code's
predicate to that spec reading); only the selection changes.  When no entry
matches, the panel is left completely unchanged. -/
theorem search_jump_first_match (P : Panel) (q : String) :
    (∀ s : String, strContains s q = true ↔
      ∃ pre post, pre ++ q.toList ++ post = s.toList) ∧
    ((∃ e ∈ P.items, strContains (fileNameStr e) q = true) →
      ∃ i, (Panel.jump_to_first_matching q P).selected = some i ∧
        i < P.items.length ∧
        strContains (fileNameStr (P.items.getD i [])) q = true ∧
        (∀ j, j < i → strContains (fileNameStr (P.items.getD j [])) q = false) ∧
        (Panel.jump_to_first_matching q P).items = P.items ∧
        (Panel.jump_to_first_matching q P).path = P.path) ∧
    ((∀ e ∈ P.items, strContains (fileNameStr e) q = false) →
      Panel.jump_to_first_matching q P = P) := by
  refine ⟨?_, ?_, ?_⟩
  · intro s
    rw [strContains_iff_occurs]
    constructor
    · intro h
      obtain ⟨pre, post, hh⟩ := h
      exact ⟨pre, post, hh⟩
    · intro h
      obtain ⟨pre, post, hh⟩ := h
      exact ⟨pre, post, hh⟩
  · intro hex
    rcases hj : jumpAux q P.items 0 with _ | i
    · exfalso
      obtain ⟨e, he, hc⟩ := hex
      have := (jumpAux_none_spec q P.items 0).mp hj e he
      rw [hc] at this
      cases this
    · obtain ⟨_, hlen, hmatch, hprior⟩ := jumpAux_some_spec q P.items 0 i hj
      refine ⟨i, ?_, ?_, ?_, ?_, ?_, ?_⟩
      · unfold Panel.jump_to_first_matching
        rw [hj]
      · simpa using hlen
      · simpa using hmatch
      · intro j hjlt
        exact hprior j (by omega)
      · unfold Panel.jump_to_first_matching
        rw [hj]
      · unfold Panel.jump_to_first_matching
        rw [hj]
  · intro hall
    unfold Panel.jump_to_first_matching
    rw [(jumpAux_none_spec q P.items 0).mpr hall]

/-- C7, witness: on the `/home/u` panel, query `"mus"` selects `music`
(index 1, first match in listing order); query `"zzz"` matches nothing and
leaves the panel unchanged. -/
theorem search_jump_first_match_witness :
    (∃ i, (Panel.jump_to_first_matching "mus" pSample).selected = some i ∧
      i < pSample.items.length ∧
      strContains (fileNameStr (pSample.items.getD i [])) "mus" = true ∧
      (∀ j, j < i →
        strContains (fileNameStr (pSample.items.getD j [])) "mus" = false) ∧
      (Panel.jump_to_first_matching "mus" pSample).items = pSample.items ∧
      (Panel.jump_to_first_matching "mus" pSample).path = pSample.path) ∧
    Panel.jump_to_first_matching "zzz" pSample = pSample :=
  ⟨(search_jump_first_match pSample "mus").2.1
      ⟨["home", "u", "music"], by decide, by decide⟩,
    (search_jump_first_match pSample "zzz").2.2 (by decide)⟩

/-- C5: every listing `Panel::gen_items` produces is ordered with
directories strictly before files and, within the same kind, by raw name
(byte-lexicographic, not case-folded); and the sorted result is the same
for every read order of the same directory contents — re-listing an
unchanged directory is deterministic. -/
theorem listing_sorted_deterministic (fs : FsNode) (p : FPath) (raw : List FPath) :
    List.Pairwise (fun x y =>
      (isDirB fs x = true ∧ isDirB fs y = false) ∨
      (isDirB fs x = isDirB fs y ∧
        strCmp (fileNameStr x) (fileNameStr y) ≠ .gt)) (Panel.gen_items fs p) ∧
    (raw.Perm (readDirRaw fs p) → sortEntries (isDirB fs) raw = Panel.gen_items fs p) := by
  constructor
  · have hsorted : List.Pairwise (fun x y => entryCmp (isDirB fs) x y ≠ .gt)
        (Panel.gen_items fs p) := sortEntries_sorted (isDirB fs) (readDirRaw fs p)
    apply hsorted.imp_of_mem
    intro a b ha hb hle
    obtain ⟨na, hna⟩ := mem_gen_items_shape ha
    obtain ⟨nb, hnb⟩ := mem_gen_items_shape hb
    unfold entryCmp at hle
    by_cases hda : isDirB fs a = true <;> by_cases hdb : isDirB fs b = true
    · right
      refine ⟨by rw [hda, hdb], ?_⟩
      rw [hda, hdb] at hle
      simp only [Bool.and_self, if_pos] at hle
      rw [hna, hnb, fileNameStr_concat, fileNameStr_concat]
      rw [hna, hnb, pathCmp_append_cancel, pathCmp_single] at hle
      exact hle
    · left
      exact ⟨hda, by simpa using hdb⟩
    · exfalso
      rw [Bool.eq_false_iff.mpr hda, hdb] at hle
      simp at hle
    · right
      refine ⟨by rw [Bool.eq_false_iff.mpr hda, Bool.eq_false_iff.mpr hdb], ?_⟩
      rw [Bool.eq_false_iff.mpr hda, Bool.eq_false_iff.mpr hdb] at hle
      simp only [Bool.and_self, Bool.false_and, if_neg] at hle
      rw [hna, hnb, fileNameStr_concat, fileNameStr_concat]
      rw [hna, hnb, pathCmp_append_cancel, pathCmp_single] at hle
      simpa using hle
  · intro hperm
    exact sortEntries_eq_of_perm (isDirB fs) hperm

/-- C5, witness: for `/home/u` of `fsSample` (raw read order
`a.txt, z.txt, docs, music`) sorting the reversed raw listing gives the
same result as the listing itself — and that order is
`docs, music, a.txt, z.txt`. -/
theorem listing_sorted_deterministic_witness :
    sortEntries (isDirB fsSample) (readDirRaw fsSample ["home", "u"]).reverse =
      Panel.gen_items fsSample ["home", "u"] ∧
    Panel.gen_items fsSample ["home", "u"] =
      [["home", "u", "docs"], ["home", "u", "music"],
        ["home", "u", "a.txt"], ["home", "u", "z.txt"]] :=
  ⟨(listing_sorted_deterministic fsSample ["home", "u"]
      (readDirRaw fsSample ["home", "u"]).reverse).2 (by decide), by decide⟩

/-- C4: when `App::copy` fails, `App::copy_objects` opens an error popup
whose text is the (non-empty) failure reason, returns without crashing, and
performs no refresh — both panels (entries and selection) are exactly as
before. -/
theorem copy_failure_popup_panels_unchanged (o : Oracle) (fs fs1 : FsNode)
    (a : App) (e : String) (h : a.copy o fs = some (fs1, some e)) :
    App.copy_objects o fs a =
      some ({ a with popup := some { title := "Error", text := e } }, fs1) ∧
    ({ a with popup := some { title := "Error", text := e } } : App).left_panel
      = a.left_panel ∧
    ({ a with popup := some { title := "Error", text := e } } : App).right_panel
      = a.right_panel ∧
    e ≠ "" := by
  refine ⟨?_, rfl, rfl, ?_⟩
  · unfold App.copy_objects
    rw [h]
  · obtain ⟨e0, he0⟩ := App.copy_err_shape h
    rw [he0]
    exact copyErrMsg_ne_empty _ _ _

theorem copyRec_mkdir_fail (o : Oracle) (src dst : FPath)
    (cs : List (String × FsNode)) (fs : FsNode) (e : String)
    (h : o.create_dir_err dst = some e) :
    copyRec o src dst cs fs = (fs, some e) := by
  unfold copyRec
  rw [h]

theorem copyRec_unfold_ok (o : Oracle) (src dst : FPath)
    (cs : List (String × FsNode)) (fs : FsNode)
    (h1 : o.create_dir_err dst = none) (h2 : o.read_dir_err src = none) :
    copyRec o src dst cs fs = copyRecList o src dst cs (mkdirAll fs dst) := by
  unfold copyRec
  rw [h1, h2]

theorem copyRecList_nil (o : Oracle) (src dst : FPath) (fs : FsNode) :
    copyRecList o src dst [] fs = (fs, none) := by
  unfold copyRecList
  rfl

theorem copyRecList_cons_file_ok (o : Oracle) (src dst : FPath) (n : String)
    (d : Nat) (rest : List (String × FsNode)) (fs : FsNode)
    (h : o.copy_file_err (src ++ [n]) (dst ++ [n]) = none) :
    copyRecList o src dst ((n, .file d) :: rest) fs =
      copyRecList o src dst rest (writeFile fs (dst ++ [n]) d) := by
  conv_lhs => unfold copyRecList
  rw [h]

/-- C4, witness: submitting the copy of `/home/u/docs` to the read-only
`/home/v` opens the error popup with the non-empty reason and leaves the
filesystem and both panels unchanged. -/
theorem copy_failure_popup_panels_unchanged_witness :
    App.copy_objects oracleRO fsSample appMove =
      some ({ appMove with popup := some { title := "Error", text := eRO } }, fsSample) ∧
    eRO ≠ "" := by
  have hsrc : App.src_obj appMove = ["home", "u", "docs"] := by decide
  have hdst : App.dest_obj appMove = ["home", "v", "docs"] := by decide
  have h : appMove.copy oracleRO fsSample = some (fsSample, some eRO) := by
    unfold App.copy
    rw [hsrc, hdst]
    rw [copyRec_mkdir_fail oracleRO ["home", "u", "docs"] ["home", "v", "docs"]
      (childrenOf fsSample ["home", "u", "docs"]) fsSample
      "Read-only file system (os error 30)" (by decide)]
    rfl
  have hmain := copy_failure_popup_panels_unchanged oracleRO fsSample fsSample appMove eRO h
  exact ⟨hmain.1, hmain.2.2.2⟩

/-- C3: `App::move_objects` is copy-then-delete, for source and destination
on disjoint subtrees.  If the copy phase fails, the operation stops with the
error popup and the filesystem exactly as the failed copy left it — no
deletion is attempted and the whole source subtree is untouched.  If the
copy phase completes and the delete phase succeeds, the result is the copy
result with the source subtree removed: the source path no longer exists,
and the destination subtree is exactly what the copy produced. -/
theorem move_is_copy_then_delete (o : Oracle) (fs fs1 : FsNode) (a : App)
    (hd1 : ¬ a.dest_obj <+: a.src_obj) (hd2 : ¬ a.src_obj <+: a.dest_obj) :
    (∀ e, a.copy o fs = some (fs1, some e) →
      App.move_objects o fs a =
        some ({ a with popup := some { title := "Error", text := e } }, fs1) ∧
      (∀ q, fsLookup fs1 (a.src_obj ++ q) = fsLookup fs (a.src_obj ++ q))) ∧
    (a.copy o fs = some (fs1, none) → moveRemoveOk o fs1 a.src_obj = true →
      App.move_objects o fs a =
        some (App.refresh (removePath fs1 a.src_obj) a, removePath fs1 a.src_obj) ∧
      fsLookup (removePath fs1 a.src_obj) a.src_obj = none ∧
      (∀ q, fsLookup (removePath fs1 a.src_obj) (a.dest_obj ++ q) =
        fsLookup fs1 (a.dest_obj ++ q))) := by
  constructor
  · intro e hc
    constructor
    · unfold App.move_objects
      rw [hc]
    · exact App.copy_src_untouched hc hd1 hd2
  · intro hc hrm
    have hsrc_ne : a.src_obj ≠ [] := App.copy_some_src_ne_nil hc
    refine ⟨?_, ?_, ?_⟩
    · unfold App.move_objects
      rw [hc]
      simp only []
      unfold moveRemoveOk at hrm
      by_cases hdir : isDirB fs1 (App.src_obj a) = true
      · rw [if_pos hdir]
        rw [if_pos hdir] at hrm
        rcases hre : o.remove_dir_err (App.src_obj a) with _ | e
        · rfl
        · rw [hre] at hrm
          cases hrm
      · rw [if_neg hdir]
        rw [if_neg hdir] at hrm
        simp only [Bool.and_eq_true, Option.isNone_iff_eq_none] at hrm
        unfold removeFilePrim
        rw [hrm.1]
        rcases hl : fsLookup fs1 (App.src_obj a) with _ | t
        · rw [hl] at hrm
          cases hrm.2
        · rw [hl] at hrm
          cases t with
          | file d => rfl
          | dir cs => cases hrm.2
    · exact fsLookup_removePath_self a.src_obj fs1 hsrc_ne
    · intro q
      apply fsLookup_fsModify_disjoint
      · intro hp
        rcases List.prefix_or_prefix_of_prefix hp (List.prefix_append a.dest_obj q)
          with hx | hx
        · exact hd2 hx
        · exact hd1 hx
      · intro hp
        exact hd1 ((List.prefix_append a.dest_obj q).trans hp)

/-- C3, witness: moving `/home/u/docs` (containing `x.txt`) to `/home/v`
with no failures removes `/home/u/docs` and leaves `/home/v/docs/x.txt`
holding the copied content. -/
theorem move_is_copy_then_delete_witness :
    App.move_objects Oracle.ok fsSample appMove =
      some (App.refresh (removePath fsAfterCopy ["home", "u", "docs"]) appMove,
        removePath fsAfterCopy ["home", "u", "docs"]) ∧
    fsLookup (removePath fsAfterCopy ["home", "u", "docs"]) ["home", "u", "docs"] = none ∧
    fsLookup (removePath fsAfterCopy ["home", "u", "docs"]) ["home", "v", "docs", "x.txt"]
      = some (.file 3) := by
  have hsrc : App.src_obj appMove = ["home", "u", "docs"] := by decide
  have hdst : App.dest_obj appMove = ["home", "v", "docs"] := by decide
  have hcopy : appMove.copy Oracle.ok fsSample = some (fsAfterCopy, none) := by
    unfold App.copy
    rw [hsrc, hdst]
    rw [copyRec_unfold_ok Oracle.ok ["home", "u", "docs"] ["home", "v", "docs"]
      (childrenOf fsSample ["home", "u", "docs"]) fsSample rfl rfl]
    have hcs : childrenOf fsSample ["home", "u", "docs"] = [("x.txt", FsNode.file 3)] := rfl
    rw [hcs]
    rw [copyRecList_cons_file_ok Oracle.ok ["home", "u", "docs"] ["home", "v", "docs"]
      "x.txt" 3 [] (mkdirAll fsSample ["home", "v", "docs"]) rfl]
    rw [copyRecList_nil]
    rfl
  have hmain := (move_is_copy_then_delete Oracle.ok fsSample fsAfterCopy appMove
    (by rw [hdst, hsrc]; decide) (by rw [hdst, hsrc]; decide)).2 hcopy (by rfl)
  rw [hsrc, hdst] at hmain
  refine ⟨hmain.1, hmain.2.1, ?_⟩
  have h3 := hmain.2.2 ["x.txt"]
  rw [show (["home", "v", "docs"] : FPath) ++ ["x.txt"] = ["home", "v", "docs", "x.txt"]
    from rfl] at h3
  rw [h3]
  rfl

/-- C2: with no selection, `App::copy` (and therefore the copy and move
commands) panics — `src_path.file_name().unwrap()` unwraps `None` for
`PathBuf::new()` — modelled by the `none` outcome; the control loop crashes
instead of performing a safe no-op.  Descend (`Panel::open_dir`) on the
same state is a genuine no-op. -/
theorem copy_empty_selection_panics :
    appNoSel.get_cur_panel.selected = none ∧
    App.copy Oracle.ok fsSample appNoSel = none ∧
    App.copy_objects Oracle.ok fsSample appNoSel = none ∧
    App.move_objects Oracle.ok fsSample appNoSel = none ∧
    Panel.open_dir fsSample appNoSel.get_cur_panel = appNoSel.get_cur_panel :=
  ⟨rfl, rfl, rfl, rfl, rfl⟩

/-- C10: with no selection, `Panel::get_cur_obj` returns the empty path
(`PathBuf::new()`) rather than failing, and that empty path is what the
handlers then operate on: `App::copy` (hence move) panics unwrapping its
file name, and `App::delete_objects` calls `fs::remove_file("")`, which
fails — the filesystem is unchanged and the error popup names the empty
path. -/
theorem empty_selection_empty_path (o : Oracle) (fs : FsNode) (a : App)
    (h : a.get_cur_panel.selected = none) (hroot : rootIsDir fs = true) :
    a.get_cur_panel.get_cur_obj = [] ∧
    a.src_obj = [] ∧
    a.copy o fs = none ∧
    (App.delete_objects o fs a).2 = fs ∧
    ∃ e, (App.delete_objects o fs a).1.popup =
      some { title := "Error", text := removeErrMsg [] e } := by
  have hobj : a.get_cur_panel.get_cur_obj = [] := by
    unfold Panel.get_cur_obj
    rw [h]
  have hsrc : a.src_obj = [] := by
    unfold App.src_obj
    exact hobj
  have hcopy : a.copy o fs = none := by
    unfold App.copy
    rw [hsrc]
    rfl
  have hdirB : isDirB fs ([] : FPath) = false := rfl
  have hdel : (App.delete_objects o fs a).2 = fs ∧
      ∃ e, (App.delete_objects o fs a).1.popup =
        some { title := "Error", text := removeErrMsg [] e } := by
    unfold App.delete_objects
    rw [hsrc, hdirB]
    simp only [Bool.false_eq_true, if_false]
    unfold removeFilePrim
    rcases hre : o.remove_file_err [] with _ | e
    · rcases hfs : fsLookup fs [] with _ | t
      · cases fs <;> cases hfs
      · cases t with
        | file d =>
          exfalso
          cases fs with
          | file d2 => cases hroot
          | dir cs => cases hfs
        | dir cs =>
          exact ⟨rfl, "No such file or directory (os error 2)", rfl⟩
    · exact ⟨rfl, e, rfl⟩
  exact ⟨hobj, hsrc, hcopy, hdel.1, hdel.2⟩

/-- C10, witness: the theorem applied to the panel on the empty
`/home/v`. -/
theorem empty_selection_empty_path_witness :
    appNoSel.get_cur_panel.get_cur_obj = [] ∧
    App.copy Oracle.ok fsSample appNoSel = none ∧
    (App.delete_objects Oracle.ok fsSample appNoSel).2 = fsSample :=
  ⟨(empty_selection_empty_path Oracle.ok fsSample appNoSel rfl rfl).1,
    (empty_selection_empty_path Oracle.ok fsSample appNoSel rfl rfl).2.2.1,
    (empty_selection_empty_path Oracle.ok fsSample appNoSel rfl rfl).2.2.2.1⟩
